import Mathlib

/-!
Verification of the cohort cashflow engine in `src/python/utils/calc.py`.

The Python functions are shallowly embedded over ℚ:
* `collectionsAux` / `collections` embed the per-trade period loop of
  `get_cvf_cashflows_df` (lines 245-266);
* `thresholdFailed` / `thresholdFor` embed `apply_threshold_to_cohort_df`
  (lines 174-196), including the pandas NaN handling of a zero or missing
  spend divisor;
* `cvfRow` embeds the per-trade row construction of `get_cvf_cashflows_df`
  (lines 227-270), including the silent zero row for a missing cohort;
* `Payment`, `custCohort`, `paymentPeriod`, `matrixEntry`, `matrixCols`,
  `matrixIndex` embed `payment_df_to_cohort_df` (lines 12-56);
* `predRow` and its helpers embed the per-cohort branch of
  `apply_predictions_to_cohort_df` (lines 98-147);
* `npvZeroAt` / `yieldSpec` model the Yield Calculator, whose
  implementation (`compute_company_cohort_cashflows`) is imported by
  `main.py` but not present in the source tree.
-/

/-- Share rate for one period: 100% on a threshold failure, otherwise the
trade's base sharing percentage (calc.py line 255). -/
def shareRate (base : ℚ) (failed : Bool) : ℚ :=
  if failed then 1 else base

/-- The period-by-period collections loop of `get_cvf_cashflows_df`
(calc.py lines 246-266), carrying the running cumulative collected amount.
Each input row is a (payment, threshold-failed) pair. -/
def collectionsAux (cashCap base : ℚ) : ℚ → List (ℚ × Bool) → List ℚ
  | _, [] => []
  | cum, (pay, failed) :: rest =>
    if cashCap ≤ cum then
      0 :: collectionsAux cashCap base cum rest
    else
      let fin := min (pay * shareRate base failed) (max 0 (cashCap - cum))
      fin :: collectionsAux cashCap base (cum + fin) rest

/-- Collections for a trade, starting from `cumulative = 0.0`
(calc.py line 247). -/
def collections (cashCap base : ℚ) (rows : List (ℚ × Bool)) : List ℚ :=
  collectionsAux cashCap base 0 rows

/-- One raw payment row, as produced by `get_payments_dataframe`
(db_operations.py lines 224-233): customer id, payment month
(`payment_date` truncated to its calendar month), the ingestion-assigned
`cohort_month`, and the amount. -/
structure Payment where
  customerId : ℕ
  paymentMonth : ℤ
  cohortMonth : ℤ
  amount : ℚ
deriving DecidableEq

/-- Months in which a given customer paid (calc.py line 29 groups payments
by customer). -/
def custMonths (ps : List Payment) (cid : ℕ) : List ℤ :=
  (ps.filter (fun p => p.customerId == cid)).map Payment.paymentMonth

/-- The cohort month recomputed by `payment_df_to_cohort_df` (calc.py
lines 29-30): the minimum payment month of the customer. -/
def custCohort (ps : List Payment) (cid : ℕ) : ℤ :=
  (custMonths ps cid).min?.getD 0

/-- The period index of a payment (calc.py lines 39-41): the calendar-month
offset between the payment month and the recomputed cohort month. -/
def paymentPeriod (ps : List Payment) (p : Payment) : ℤ :=
  p.paymentMonth - custCohort ps p.customerId

/-- The safety filter of calc.py line 44 (`payment_period >= 0`). -/
def validPayments (ps : List Payment) : List Payment :=
  ps.filter (fun p => decide (0 ≤ paymentPeriod ps p))

/-- Column labels of the pivoted cohort matrix (calc.py lines 47-50): the
distinct period indices that occur among the payments. -/
def matrixCols (ps : List Payment) : List ℤ :=
  ((validPayments ps).map (fun p => paymentPeriod ps p)).dedup

/-- Row labels of the pivoted cohort matrix: the distinct recomputed cohort
months. -/
def matrixIndex (ps : List Payment) : List ℤ :=
  ((validPayments ps).map (fun p => custCohort ps p.customerId)).dedup

/-- One cell of the cohort matrix (calc.py lines 47-50): the sum of the
amounts of the payments landing in the given cohort and period
(`fillna(0.0)` makes an empty cell 0, which the empty sum gives). -/
def matrixEntry (ps : List Payment) (c per : ℤ) : ℚ :=
  (((validPayments ps).filter
      (fun p => decide (custCohort ps p.customerId = c) &&
                decide (paymentPeriod ps p = per))).map Payment.amount).sum

/-- Cohort-irrelevant view of a payment: every field read by
`payment_df_to_cohort_df` (calc.py reads only `customer_id`, `payment_date`
and `amount`; the stored `cohort_month` column is never consulted). -/
def stripCohort (p : Payment) : ℕ × ℤ × ℚ :=
  (p.customerId, p.paymentMonth, p.amount)

/-- One threshold rule (`payment_period_month`, `minimum_payment_percent`). -/
structure Threshold where
  period : ℤ
  minPct : ℚ

/-- The dict-comprehension lookup of calc.py line 175: the rule for a period
index, a later duplicate key overwriting an earlier one. -/
def thresholdFor (ts : List Threshold) (per : ℤ) : Option ℚ :=
  ((ts.filter (fun t => t.period == per)).map Threshold.minPct).getLast?

/-- The failure test of calc.py lines 186-193 for one cell: no rule means no
failure; a missing or zero spend makes the payment-to-spend division NaN,
which `fillna(False)` turns into no failure; otherwise the cell fails
exactly when `payment / spend < minimum_payment_percent`. -/
def thresholdFailed (payment : ℚ) (spend : Option ℚ) (rule : Option ℚ) : Bool :=
  match rule, spend with
  | none, _ => false
  | some _, none => false
  | some req, some s => if s = 0 then false else decide (payment / s < req)

/-- One trade (`cohort_start_at` normalized to a month, `sharing_percentage`,
`cash_cap`). -/
structure Trade where
  cohortStart : ℤ
  sharing : ℚ
  cashCap : ℚ

/-- The per-trade row of `get_cvf_cashflows_df` (calc.py lines 227-270): a
trade whose cohort is missing from the matrix index contributes an all-zero
row (lines 230-234); otherwise the collections loop runs on the cohort's
payments and threshold-failure flags. -/
def cvfRow (matrixIdx : List ℤ) (entry : ℤ → ℤ → ℚ) (periods : List ℤ)
    (failMask : ℤ → ℤ → Bool) (t : Trade) : List ℚ :=
  if t.cohortStart ∈ matrixIdx then
    collections t.cashCap t.sharing
      (periods.map (fun per => (entry t.cohortStart per, failMask t.cohortStart per)))
  else
    List.replicate periods.length 0

/-- The default projection horizon of `apply_predictions_to_cohort_df`
(calc.py line 63: `horizon_months: int = 24`). -/
def horizonDefault : ℕ := 24

/-- Whether a cell of the observed cohort row carries actual data: the
column exists and its value is non-zero (the test of calc.py lines 122 and
137-141). -/
def isActual (obs : ℕ → Option ℚ) (p : ℕ) : Bool :=
  match obs p with
  | some v => decide (v ≠ 0)
  | none => false

/-- The scan of calc.py lines 118-123: the largest period below the horizon
whose observed cell is actual, if any. -/
def lastActualAux (obs : ℕ → Option ℚ) : ℕ → Option ℕ
  | 0 => none
  | n + 1 => if isActual obs n then some n else lastActualAux obs n

/-- The result row right after copying the observed row and zero-filling the
missing columns (calc.py lines 88-95). -/
def row0 (obs : ℕ → Option ℚ) (p : ℕ) : ℚ :=
  (obs p).getD 0

/-- The guard of calc.py line 126: period 0 holds no data and the cohort has
positive spend. -/
def m0Cond (obs : ℕ → Option ℚ) (spend : ℚ) : Bool :=
  decide (row0 obs 0 = 0) && decide (0 < spend)

/-- The result row after the m0 seeding step (calc.py lines 126-129). -/
def row1 (obs : ℕ → Option ℚ) (m0 spend : ℚ) (p : ℕ) : ℚ :=
  if p = 0 ∧ m0Cond obs spend then m0 * spend else row0 obs p

/-- The last-actual period after the m0 seeding step (calc.py lines 118-129):
the scanned value, or period 0 when the m0 seed was written and no actual
data exists. -/
def laFinal (obs : ℕ → Option ℚ) (horizon : ℕ) (spend : ℚ) : Option ℕ :=
  match lastActualAux obs horizon with
  | some l => some l
  | none => if m0Cond obs spend then some 0 else none

/-- The running `reference_value` of the decay loop (calc.py lines 133-143)
just before period `l + 1 + k` is processed: re-anchored to the latest
actual cell passed so far, initially the value at the last actual period. -/
def refAux (obs : ℕ → Option ℚ) (l : ℕ) (init : ℚ) : ℕ → ℚ
  | 0 => init
  | k + 1 => if isActual obs (l + 1 + k) then row0 obs (l + 1 + k) else refAux obs l init k

/-- The cohort row returned by `apply_predictions_to_cohort_df` for a cohort
present in the predictions dict (calc.py lines 98-150): columns at or beyond
the horizon are dropped (`result = result[pred_cols]`, line 95); below the
horizon, periods up to the last actual keep their (possibly m0-seeded)
values, and later periods hold the copied actual value or the geometric
decay `reference_value * (1 - churn) ** (period - last_actual_period)`. -/
def predRow (obs : ℕ → Option ℚ) (horizon : ℕ) (m0 churn spend : ℚ) (p : ℕ) :
    Option ℚ :=
  if p < horizon then
    some (match laFinal obs horizon spend with
      | none => row1 obs m0 spend p
      | some l =>
        if p ≤ l then row1 obs m0 spend p
        else if isActual obs p then row0 obs p
        else refAux obs l (row1 obs m0 spend l) (p - l - 1) * (1 - churn) ^ (p - l))
  else none

/-- An observed row with a single actual payment of 100 at period 0. -/
def obsSingle : ℕ → Option ℚ :=
  fun p => if p = 0 then some 100 else none

/-- An observed row with actual data at period 0 and at period 30 — beyond
the default 24-period horizon. -/
def obsBeyond : ℕ → Option ℚ :=
  fun p => if p = 0 then some 10 else if p = 30 then some 5 else none

/-- Modelled from the spec (§4.5): the zero-NPV condition of the Yield
Calculator, whose implementation `compute_company_cohort_cashflows` is
imported by `main.py` but missing from the source tree.  The spend is a
single outflow at time 0 and the ordered period payments are inflows
discounted by `(1+r)^(i+1)`. -/
def npvZeroAt (spend : ℚ) (ps : List ℚ) (r : ℝ) : Prop :=
  -(spend : ℝ) +
    ∑ i ∈ Finset.range ps.length, (ps.getD i 0 : ℝ) * ((1 + r)⁻¹) ^ (i + 1) = 0

/-- Modelled from the spec (§4.5): the cash-flow series fed to the Yield
Calculator — the spend as a single negative outflow at time 0 followed by
the ordered period payments. -/
def cashSeries (spend : ℚ) (ps : List ℚ) : List ℚ :=
  (-spend) :: ps

/-- Modelled from the spec (§4.5): the input/output contract of the Yield
Calculator — the result is absent exactly when no monthly rate `r > -1`
makes the NPV zero, and a present result is the annualization
`(1+r)^12 - 1` of such a rate. -/
def yieldSpec (spend : ℚ) (ps : List ℚ) (result : Option ℝ) : Prop :=
  (result = none ↔ ¬ ∃ r : ℝ, -1 < r ∧ npvZeroAt spend ps r) ∧
  (∀ y : ℝ, result = some y →
    ∃ r : ℝ, -1 < r ∧ npvZeroAt spend ps r ∧ y = (1 + r) ^ (12 : ℕ) - 1)

theorem collectionsAux_sum_take_le (cashCap base : ℚ) :
    ∀ (rows : List (ℚ × Bool)) (cum : ℚ), cum ≤ cashCap → ∀ i : ℕ,
      cum + ((collectionsAux cashCap base cum rows).take i).sum ≤ cashCap := by
  intro rows
  induction rows with
  | nil => intro cum h i; simp [collectionsAux, h]
  | cons r rest ih =>
    intro cum h i
    obtain ⟨pay, failed⟩ := r
    by_cases hc : cashCap ≤ cum
    · cases i with
      | zero => simpa using h
      | succ i =>
        simp only [collectionsAux, if_pos hc, List.take_succ_cons, List.sum_cons]
        have := ih cum h i
        linarith
    · push_neg at hc
      cases i with
      | zero => simpa using h
      | succ i =>
        simp only [collectionsAux, if_neg (not_le.mpr hc), List.take_succ_cons,
          List.sum_cons]
        have hfin : min (pay * shareRate base failed) (max 0 (cashCap - cum)) ≤
            cashCap - cum := by
          have h1 : max 0 (cashCap - cum) = cashCap - cum := by
            apply max_eq_right; linarith
          calc min (pay * shareRate base failed) (max 0 (cashCap - cum))
              ≤ max 0 (cashCap - cum) := min_le_right _ _
            _ = cashCap - cum := h1
        have hcum' : cum + min (pay * shareRate base failed)
            (max 0 (cashCap - cum)) ≤ cashCap := by linarith
        have := ih _ hcum' i
        linarith

theorem collectionsAux_zero_of_capped (cashCap base : ℚ) :
    ∀ (rows : List (ℚ × Bool)) (cum : ℚ), cashCap ≤ cum →
      collectionsAux cashCap base cum rows = List.replicate rows.length 0 := by
  intro rows
  induction rows with
  | nil => intro cum _; rfl
  | cons r rest ih =>
    intro cum h
    obtain ⟨pay, failed⟩ := r
    simp [collectionsAux, if_pos h, ih cum h, List.replicate_succ]

theorem collectionsAux_zero_after (cashCap base : ℚ) :
    ∀ (rows : List (ℚ × Bool)) (cum : ℚ) (i j : ℕ), i ≤ j →
      cashCap ≤ cum + ((collectionsAux cashCap base cum rows).take i).sum →
      (collectionsAux cashCap base cum rows).getD j 0 = 0 := by
  intro rows
  induction rows with
  | nil => intro cum i j _ _; simp [collectionsAux]
  | cons r rest ih =>
    intro cum i j hij hcap
    obtain ⟨pay, failed⟩ := r
    by_cases hc : cashCap ≤ cum
    · rw [collectionsAux_zero_of_capped cashCap base _ cum hc]
      rcases Nat.lt_or_ge j (((pay, failed) :: rest).length) with hj | hj
      · rw [List.getD_eq_getElem _ _ (by simpa using hj)]
        simp
      · rw [List.getD_eq_default _ _ (by simpa using hj)]
    · push_neg at hc
      simp only [collectionsAux, if_neg (not_le.mpr hc)] at hcap ⊢
      cases i with
      | zero =>
        simp only [List.take_zero, List.sum_nil, add_zero] at hcap
        exact absurd hcap (not_le.mpr hc)
      | succ i =>
        simp only [List.take_succ_cons, List.sum_cons] at hcap
        cases j with
        | zero => omega
        | succ j =>
          simp only [List.getD_cons_succ]
          exact ih _ i j (Nat.le_of_succ_le_succ hij) (by linarith)

theorem collectionsAux_nonneg (cashCap base : ℚ) (hbase : 0 ≤ base) :
    ∀ (rows : List (ℚ × Bool)) (cum : ℚ), (∀ r ∈ rows, 0 ≤ r.1) →
      ∀ x ∈ collectionsAux cashCap base cum rows, 0 ≤ x := by
  intro rows
  induction rows with
  | nil => intro cum _ x hx; simp [collectionsAux] at hx
  | cons r rest ih =>
    intro cum hpos x hx
    obtain ⟨pay, failed⟩ := r
    have hpay : 0 ≤ pay := hpos (pay, failed) (List.mem_cons_self _ _)
    have hrest : ∀ r ∈ rest, 0 ≤ r.1 := fun r hr => hpos r (List.mem_cons_of_mem _ hr)
    by_cases hc : cashCap ≤ cum
    · simp only [collectionsAux, if_pos hc, List.mem_cons] at hx
      rcases hx with h | h
      · simp [h]
      · exact ih cum hrest x h
    · simp only [collectionsAux, if_neg hc, List.mem_cons] at hx
      rcases hx with h | h
      · have hrate : 0 ≤ shareRate base failed := by
          unfold shareRate; split <;> [norm_num; exact hbase]
        have : 0 ≤ min (pay * shareRate base failed) (max 0 (cashCap - cum)) :=
          le_min (mul_nonneg hpay hrate) (le_max_left _ _)
        exact h ▸ this
      · exact ih _ hrest x h

theorem sum_take_mono_of_nonneg (xs : List ℚ) (hpos : ∀ x ∈ xs, 0 ≤ x)
    (i j : ℕ) (hij : i ≤ j) : (xs.take i).sum ≤ (xs.take j).sum := by
  have hdecomp : xs.take j = xs.take i ++ (xs.drop i).take (j - i) := by
    rw [← List.take_add]
    congr 1
    omega
  rw [hdecomp, List.sum_append]
  have : 0 ≤ ((xs.drop i).take (j - i)).sum := by
    apply List.sum_nonneg
    intro x hx
    exact hpos x (List.mem_of_mem_drop (List.mem_of_mem_take hx))
  linarith

/-- **C1** — Cash-cap invariant (calc.py lines 245-266): for a funded cohort
(arbitrary per-period payments and threshold-failure flags) with a
non-negative cash cap, the running cumulative collected amount never exceeds
the cash cap, and once the cumulative amount has reached the cap every
subsequent period's incremental collection is exactly 0. -/
theorem C1_cash_cap_invariant (cashCap base : ℚ) (rows : List (ℚ × Bool))
    (hcap : 0 ≤ cashCap) :
    (∀ i : ℕ, ((collections cashCap base rows).take i).sum ≤ cashCap) ∧
    (∀ i j : ℕ, i ≤ j →
      cashCap ≤ ((collections cashCap base rows).take i).sum →
      (collections cashCap base rows).getD j 0 = 0) := by
  constructor
  · intro i
    have := collectionsAux_sum_take_le cashCap base rows 0 hcap i
    simpa [collections] using this
  · intro i j hij hcapped
    exact collectionsAux_zero_after cashCap base rows 0 i j hij
      (by simpa [collections] using hcapped)

/-- Witness for C1: the spec's own scenario — spend 1000, base share 50%,
cash cap 100, period-0 payment 50 with a failed threshold (full share),
period-1 payment 200, period-2 payment 500.  Collections are [50, 50, 0]:
the cumulative amount stays at the cap and period 2 collects 0. -/
theorem C1_cash_cap_invariant_witness :
    ((collections 100 (1/2) [(50, true), (200, false), (500, false)]).take 2).sum
        ≤ 100 ∧
    (collections 100 (1/2) [(50, true), (200, false), (500, false)]).getD 2 0
        = 0 :=
  ⟨(C1_cash_cap_invariant 100 (1/2) [(50, true), (200, false), (500, false)]
      (by norm_num)).1 2,
   (C1_cash_cap_invariant 100 (1/2) [(50, true), (200, false), (500, false)]
      (by norm_num)).2 2 2 le_rfl (by norm_num [collections, collectionsAux, shareRate])⟩

theorem matrixEntry_nonneg (ps : List Payment) (c per : ℤ)
    (hamt : ∀ p ∈ ps, 0 ≤ p.amount) : 0 ≤ matrixEntry ps c per := by
  apply List.sum_nonneg
  intro x hx
  simp only [matrixEntry, List.mem_map] at hx
  obtain ⟨p, hp, rfl⟩ := hx
  have hp' : p ∈ validPayments ps := (List.mem_filter.mp hp).1
  exact hamt p (List.mem_filter.mp hp').1

/-- **C7** — Monotonicity (calc.py lines 46-50 and 245-266): with all input
payment amounts non-negative and a non-negative base share, both the
cumulative payment sequence of a cohort row and the cumulative collected
sequence of a funded cohort are non-decreasing in the period index. -/
theorem C7_monotone_cumulatives (ps : List Payment) (c : ℤ) (cols : List ℤ)
    (failMask : ℤ → Bool) (cashCap base : ℚ)
    (hamt : ∀ p ∈ ps, 0 ≤ p.amount) (hbase : 0 ≤ base) :
    (∀ i j : ℕ, i ≤ j →
      ((cols.map (matrixEntry ps c)).take i).sum ≤
        ((cols.map (matrixEntry ps c)).take j).sum) ∧
    (∀ i j : ℕ, i ≤ j →
      ((collections cashCap base
          (cols.map (fun per => (matrixEntry ps c per, failMask per)))).take i).sum ≤
        ((collections cashCap base
          (cols.map (fun per => (matrixEntry ps c per, failMask per)))).take j).sum) := by
  constructor
  · intro i j hij
    apply sum_take_mono_of_nonneg _ _ i j hij
    intro x hx
    obtain ⟨per, _, rfl⟩ := List.mem_map.mp hx
    exact matrixEntry_nonneg ps c per hamt
  · intro i j hij
    apply sum_take_mono_of_nonneg _ _ i j hij
    intro x hx
    apply collectionsAux_nonneg cashCap base hbase _ 0 _ x hx
    intro r hr
    obtain ⟨per, _, rfl⟩ := List.mem_map.mp hr
    exact matrixEntry_nonneg ps c per hamt

/-- Witness for C7 at a concrete cohort: one payment of 10 in month 0,
periods [0, 1], cash cap 100, base share 1/2. -/
theorem C7_monotone_cumulatives_witness :
    ((([0, 1] : List ℤ).map (matrixEntry [⟨1, 0, 0, 10⟩] 0)).take 1).sum ≤
      ((([0, 1] : List ℤ).map (matrixEntry [⟨1, 0, 0, 10⟩] 0)).take 2).sum ∧
    ((collections 100 (1/2)
        (([0, 1] : List ℤ).map
          (fun per => (matrixEntry [⟨1, 0, 0, 10⟩] 0 per, false)))).take 1).sum ≤
      ((collections 100 (1/2)
        (([0, 1] : List ℤ).map
          (fun per => (matrixEntry [⟨1, 0, 0, 10⟩] 0 per, false)))).take 2).sum :=
  ⟨(C7_monotone_cumulatives [⟨1, 0, 0, 10⟩] 0 [0, 1] (fun _ => false) 100 (1/2)
      (by intro p hp; simp at hp; rw [hp]; norm_num) (by norm_num)).1 1 2
      (by norm_num),
   (C7_monotone_cumulatives [⟨1, 0, 0, 10⟩] 0 [0, 1] (fun _ => false) 100 (1/2)
      (by intro p hp; simp at hp; rw [hp]; norm_num) (by norm_num)).2 1 2
      (by norm_num)⟩

/-- **C3 counterexample** — period indices are calendar offsets, not ordinal
positions (calc.py lines 39-41): a single cohort whose customer paid in
calendar months 0, 1 and 3 produces matrix columns 0, 1, 3 — not 0, 1, 2 as
the claim states — and calendar month 2 is simply absent. -/
theorem C3_period_index_counterexample :
    matrixCols [⟨1, 0, 0, 10⟩, ⟨1, 1, 0, 10⟩, ⟨1, 3, 0, 10⟩] = [0, 1, 3] ∧
    (2 : ℤ) ∉ matrixCols [⟨1, 0, 0, 10⟩, ⟨1, 1, 0, 10⟩, ⟨1, 3, 0, 10⟩] ∧
    matrixEntry [⟨1, 0, 0, 10⟩, ⟨1, 1, 0, 10⟩, ⟨1, 3, 0, 10⟩] 0 3 = 10 ∧
    matrixEntry [⟨1, 0, 0, 10⟩, ⟨1, 1, 0, 10⟩, ⟨1, 3, 0, 10⟩] 0 2 = 0 := by
  refine ⟨by decide, by decide, ?_, ?_⟩ <;>
    norm_num [matrixEntry, validPayments, custCohort, custMonths, paymentPeriod]

/-- **C3 amended** — Period-index semantics (calc.py lines 36-50): the period
index of a payment is the calendar-month offset of its payment month from the
customer's recomputed cohort month (the customer's earliest payment month,
hence every offset is non-negative), and the matrix columns are exactly the
offsets realized by some payment — months without payments yield no column. -/
theorem foldl_min_le_init : ∀ (t : List ℤ) (b : ℤ), t.foldl min b ≤ b
  | [], b => le_refl b
  | c :: t, b => le_trans (foldl_min_le_init t (min b c)) (min_le_left b c)

theorem foldl_min_le_mem : ∀ (t : List ℤ) (b x : ℤ), x ∈ t → t.foldl min b ≤ x
  | c :: t, b, x, hx => by
    rcases List.mem_cons.mp hx with rfl | hx'
    · exact le_trans (foldl_min_le_init t (min b x)) (min_le_right b x)
    · exact foldl_min_le_mem t (min b c) x hx'

theorem min?_getD_le {l : List ℤ} {x : ℤ} (hx : x ∈ l) : l.min?.getD 0 ≤ x := by
  cases l with
  | nil => simp at hx
  | cons b t =>
    show (some (t.foldl min b)).getD 0 ≤ x
    rcases List.mem_cons.mp hx with rfl | hx'
    · exact foldl_min_le_init t x
    · exact foldl_min_le_mem t b x hx'

theorem C3_period_index_is_calendar_offset (ps : List Payment) :
    (∀ p ∈ ps, custCohort ps p.customerId ≤ p.paymentMonth) ∧
    (∀ c : ℤ, c ∈ matrixCols ps ↔
      ∃ p ∈ ps, p.paymentMonth - custCohort ps p.customerId = c ∧ 0 ≤ c) := by
  constructor
  · intro p hp
    have hmem : p.paymentMonth ∈ custMonths ps p.customerId := by
      simp only [custMonths, List.mem_map, List.mem_filter]
      exact ⟨p, ⟨hp, by simp⟩, rfl⟩
    exact min?_getD_le hmem
  · intro c
    simp only [matrixCols, List.mem_dedup, List.mem_map, validPayments,
      List.mem_filter, decide_eq_true_eq, paymentPeriod]
    constructor
    · rintro ⟨p, ⟨hp, hpos⟩, rfl⟩
      exact ⟨p, hp, rfl, hpos⟩
    · rintro ⟨p, hp, hsub, hc⟩
      exact ⟨p, ⟨hp, hsub ▸ hc⟩, hsub⟩

/-- Witness for C3 amended: a customer first paying in month 2, then in
month 5, yields a column at offset 3. -/
theorem C3_period_index_witness :
    (3 : ℤ) ∈ matrixCols [⟨1, 2, 7, 4⟩, ⟨1, 5, 7, 6⟩] :=
  ((C3_period_index_is_calendar_offset [⟨1, 2, 7, 4⟩, ⟨1, 5, 7, 6⟩]).2 3).mpr
    ⟨⟨1, 5, 7, 6⟩, by decide, by decide, by decide⟩

theorem strip_fields {p q : Payment} (h : stripCohort p = stripCohort q) :
    p.customerId = q.customerId ∧ p.paymentMonth = q.paymentMonth ∧
      p.amount = q.amount := by
  simpa [stripCohort, Prod.ext_iff] using h

theorem filter_map_strip_congr {α : Type} (f g : Payment → Bool)
    (u v : Payment → α)
    (hfg : ∀ p q, stripCohort p = stripCohort q → f p = g q)
    (huv : ∀ p q, stripCohort p = stripCohort q → u p = v q) :
    ∀ ps₁ ps₂ : List Payment, ps₁.map stripCohort = ps₂.map stripCohort →
      (ps₁.filter f).map u = (ps₂.filter g).map v := by
  intro ps₁
  induction ps₁ with
  | nil =>
    intro ps₂ h
    cases ps₂ with
    | nil => rfl
    | cons q t₂ => simp at h
  | cons p t ih =>
    intro ps₂ h
    cases ps₂ with
    | nil => simp at h
    | cons q t₂ =>
      simp only [List.map_cons, List.cons.injEq] at h
      obtain ⟨h1, h2⟩ := h
      have hf := hfg p q h1
      have hu := huv p q h1
      by_cases hfp : f p = true
      · rw [List.filter_cons_of_pos hfp,
            List.filter_cons_of_pos (hf ▸ hfp)]
        simp only [List.map_cons]
        exact congrArg₂ (· :: ·) hu (ih t₂ h2)
      · rw [List.filter_cons_of_neg (by simpa using hfp),
            List.filter_cons_of_neg (by rw [← hf]; simpa using hfp)]
        exact ih t₂ h2

theorem custMonths_congr {ps₁ ps₂ : List Payment}
    (h : ps₁.map stripCohort = ps₂.map stripCohort) (cid : ℕ) :
    custMonths ps₁ cid = custMonths ps₂ cid :=
  filter_map_strip_congr (fun p => p.customerId == cid)
    (fun p => p.customerId == cid) Payment.paymentMonth Payment.paymentMonth
    (fun p q hpq => by
      simp only []
      rw [show p.customerId = q.customerId from (strip_fields hpq).1])
    (fun p q hpq => (strip_fields hpq).2.1) ps₁ ps₂ h

theorem custCohort_congr {ps₁ ps₂ : List Payment}
    (h : ps₁.map stripCohort = ps₂.map stripCohort) (cid : ℕ) :
    custCohort ps₁ cid = custCohort ps₂ cid := by
  unfold custCohort
  rw [custMonths_congr h cid]

theorem paymentPeriod_congr {ps₁ ps₂ : List Payment}
    (h : ps₁.map stripCohort = ps₂.map stripCohort) {p q : Payment}
    (hpq : stripCohort p = stripCohort q) :
    paymentPeriod ps₁ p = paymentPeriod ps₂ q := by
  unfold paymentPeriod
  rw [(strip_fields hpq).2.1, (strip_fields hpq).1, custCohort_congr h]

/-- **C9 counterexample** — the stored `cohort_month` field is ignored
(calc.py lines 28-33 recompute the cohort from the customer's earliest
payment month): a payment whose stored cohort month is 99 but whose only
payment month is 5 lands in cohort 5, cohort 99 stays empty, and changing
the stored field from 5 to 99 leaves the matrix index unchanged — the two
runs do NOT place the payment in different cohorts. -/
theorem C9_trusted_cohort_counterexample :
    matrixIndex [⟨1, 5, 99, 10⟩] = [5] ∧
    matrixEntry [⟨1, 5, 99, 10⟩] 5 0 = 10 ∧
    matrixEntry [⟨1, 5, 99, 10⟩] 99 0 = 0 ∧
    matrixIndex [⟨1, 5, 5, 10⟩] = matrixIndex [⟨1, 5, 99, 10⟩] := by
  refine ⟨by decide, ?_, ?_, by decide⟩ <;>
    norm_num [matrixEntry, validPayments, custCohort, custMonths, paymentPeriod]

/-- **C9 amended** — Cohort recomputed, stored assignment ignored (calc.py
lines 28-33): the cohort matrix depends only on each payment's customer id,
payment month and amount; two payment lists agreeing on those fields — no
matter how their stored `cohort_month` fields differ — give identical matrix
entries, columns and index. -/
theorem C9_cohort_recomputed (ps₁ ps₂ : List Payment)
    (h : ps₁.map stripCohort = ps₂.map stripCohort) :
    (∀ c per : ℤ, matrixEntry ps₁ c per = matrixEntry ps₂ c per) ∧
    matrixCols ps₁ = matrixCols ps₂ ∧
    matrixIndex ps₁ = matrixIndex ps₂ := by
  have hvalid : ∀ p q, stripCohort p = stripCohort q →
      (decide (0 ≤ paymentPeriod ps₁ p) : Bool) =
        (decide (0 ≤ paymentPeriod ps₂ q) : Bool) := by
    intro p q hpq
    rw [paymentPeriod_congr h hpq]
  refine ⟨?_, ?_, ?_⟩
  · intro c per
    unfold matrixEntry validPayments
    rw [List.filter_filter, List.filter_filter]
    apply congrArg List.sum
    apply filter_map_strip_congr _ _ Payment.amount Payment.amount _
      (fun p q hpq => (strip_fields hpq).2.2) ps₁ ps₂ h
    intro p q hpq
    rw [hvalid p q hpq, custCohort_congr h, (strip_fields hpq).1,
      paymentPeriod_congr h hpq]
  · unfold matrixCols validPayments
    apply congrArg List.dedup
    exact filter_map_strip_congr _ _ _ _ hvalid
      (fun p q hpq => paymentPeriod_congr h hpq) ps₁ ps₂ h
  · unfold matrixIndex validPayments
    apply congrArg List.dedup
    apply filter_map_strip_congr _ _ _ _ hvalid _ ps₁ ps₂ h
    intro p q hpq
    rw [(strip_fields hpq).1, custCohort_congr h]

/-- Witness for C9 amended: the same payment with stored cohort months 5 and
99 produces the same matrix cell. -/
theorem C9_cohort_recomputed_witness :
    matrixEntry [⟨1, 5, 5, 10⟩] 5 0 = matrixEntry [⟨1, 5, 99, 10⟩] 5 0 :=
  (C9_cohort_recomputed [⟨1, 5, 5, 10⟩] [⟨1, 5, 99, 10⟩] rfl).1 5 0

/-- **C2** — Threshold step-up (calc.py lines 174-196, 249-259): when a rule
is defined for the period and the payment-to-spend quotient is strictly below
its minimum, the applied share rate is 1 whatever the base rate; with no rule
for the period, or with the quotient at or above the minimum, the applied
share rate is the trade's base sharing percentage. -/
theorem C2_threshold_step_up (ts : List Threshold) (per : ℤ) (base pay s : ℚ) :
    (∀ req : ℚ, thresholdFor ts per = some req → s ≠ 0 → pay / s < req →
      shareRate base (thresholdFailed pay (some s) (thresholdFor ts per)) = 1) ∧
    (thresholdFor ts per = none →
      shareRate base (thresholdFailed pay (some s) (thresholdFor ts per)) = base) ∧
    (∀ req : ℚ, thresholdFor ts per = some req → req ≤ pay / s →
      shareRate base (thresholdFailed pay (some s) (thresholdFor ts per)) = base) := by
  refine ⟨?_, ?_, ?_⟩
  · intro req hrule hs hlt
    rw [hrule]
    simp [thresholdFailed, shareRate, if_neg hs, hlt]
  · intro hrule
    rw [hrule]
    simp [thresholdFailed, shareRate]
  · intro req hrule hge
    rw [hrule]
    by_cases hs : s = 0
    · simp [thresholdFailed, shareRate, hs]
    · simp [thresholdFailed, shareRate, if_neg hs, not_lt.mpr hge]

/-- Witness for C2: rule 10% at period 0.  A 50 payment against a 1000 spend
(5%) forces share 1; a period with no rule keeps base 3/4; a 200 payment
(20%) keeps base 1/2. -/
theorem C2_threshold_step_up_witness :
    shareRate (1/2)
        (thresholdFailed 50 (some 1000) (thresholdFor [⟨0, 1/10⟩] 0)) = 1 ∧
    shareRate (3/4)
        (thresholdFailed 7 (some 1000) (thresholdFor [⟨0, 1/10⟩] 5)) = 3/4 ∧
    shareRate (1/2)
        (thresholdFailed 200 (some 1000) (thresholdFor [⟨0, 1/10⟩] 0)) = 1/2 :=
  ⟨(C2_threshold_step_up [⟨0, 1/10⟩] 0 (1/2) 50 1000).1 (1/10) rfl
      (by norm_num) (by norm_num),
   (C2_threshold_step_up [⟨0, 1/10⟩] 5 (3/4) 7 1000).2.1 rfl,
   (C2_threshold_step_up [⟨0, 1/10⟩] 0 (1/2) 200 1000).2.2 (1/10) rfl
      (by norm_num)⟩

/-- **C5 counterexample** — the code does not fail fast: with a zero spend
divisor the threshold check silently reports no failure (calc.py lines
186-193 turn the division into NaN and `fillna(False)`), with a missing
spend likewise, and a trade whose cohort month is absent from the matrix
yields a silently-added all-zero row (calc.py lines 230-234); no error of
any kind is produced. -/
theorem C5_fail_fast_counterexample :
    thresholdFailed 5 (some 0) (some (1/10)) = false ∧
    thresholdFailed 5 none (some (1/10)) = false ∧
    cvfRow [] (fun _ _ => 7) [0, 1, 2] (fun _ _ => false) ⟨0, 1/2, 100⟩ =
      [0, 0, 0] := by
  refine ⟨by decide, rfl, ?_⟩
  simp [cvfRow]

/-- **C5 amended** — Silent defaulting on precondition violations: a zero or
missing spend makes the threshold check report no failure for the period
(never an error), and a Trade cohort month with no row in the cohort matrix
produces an all-zero collections row (never an error). -/
theorem C5_silent_defaults (pay req : ℚ) :
    thresholdFailed pay (some 0) (some req) = false ∧
    thresholdFailed pay none (some req) = false ∧
    (∀ (matrixIdx : List ℤ) (entry : ℤ → ℤ → ℚ) (periods : List ℤ)
        (failMask : ℤ → ℤ → Bool) (t : Trade), t.cohortStart ∉ matrixIdx →
      cvfRow matrixIdx entry periods failMask t =
        List.replicate periods.length 0) := by
  refine ⟨by simp [thresholdFailed], rfl, ?_⟩
  intro matrixIdx entry periods failMask t h
  simp [cvfRow, h]

/-- Witness for C5 amended at a concrete missing cohort. -/
theorem C5_silent_defaults_witness :
    cvfRow [5] (fun _ _ => 7) [0, 1] (fun _ _ => false) ⟨0, 1/2, 100⟩ =
      List.replicate 2 0 :=
  (C5_silent_defaults 0 0).2.2 [5] (fun _ _ => 7) [0, 1] (fun _ _ => false)
    ⟨0, 1/2, 100⟩ (by decide)

theorem lastActualAux_none (obs : ℕ → Option ℚ) :
    ∀ n, lastActualAux obs n = none → ∀ q, q < n → isActual obs q = false := by
  intro n
  induction n with
  | zero => intro _ q hq; omega
  | succ n ih =>
    intro h q hq
    unfold lastActualAux at h
    cases hb : isActual obs n with
    | true => rw [if_pos hb] at h; exact absurd h (by simp)
    | false =>
      rw [if_neg (by simp [hb])] at h
      rcases Nat.lt_succ_iff_lt_or_eq.mp hq with hq' | rfl
      · exact ih h q hq'
      · exact hb

theorem lastActualAux_some (obs : ℕ → Option ℚ) :
    ∀ n l, lastActualAux obs n = some l →
      isActual obs l = true ∧ l < n ∧
        ∀ q, q < n → isActual obs q = true → q ≤ l := by
  intro n
  induction n with
  | zero => intro l h; exact absurd h (by simp [lastActualAux])
  | succ n ih =>
    intro l h
    unfold lastActualAux at h
    cases hb : isActual obs n with
    | true =>
      rw [if_pos hb] at h
      obtain rfl : n = l := by injection h
      exact ⟨hb, Nat.lt_succ_self _, fun q hq _ => by omega⟩
    | false =>
      rw [if_neg (by simp [hb])] at h
      obtain ⟨h1, h2, h3⟩ := ih l h
      refine ⟨h1, by omega, fun q hq hq' => ?_⟩
      rcases Nat.lt_succ_iff_lt_or_eq.mp hq with hq'' | rfl
      · exact h3 q hq'' hq'
      · rw [hq'] at hb; exact absurd hb (by simp)

/-- **C4** — Projection decay (calc.py lines 131-147): every synthesized
period below the horizon (a period past the final last-actual index whose
observed cell is not actual) equals exactly `(1 - churn)` times the value of
the immediately preceding period, whether that value was observed, seeded or
itself synthesized — hence the decay compounds geometrically. -/
theorem C4_geometric_decay (obs : ℕ → Option ℚ) (horizon : ℕ)
    (m0 churn spend : ℚ) (l p : ℕ)
    (hla : laFinal obs horizon spend = some l) (hlp : l < p) (hp : p < horizon)
    (hact : isActual obs p = false) :
    predRow obs horizon m0 churn spend p =
      some ((predRow obs horizon m0 churn spend (p - 1)).getD 0 * (1 - churn)) := by
  have hnoact : ∀ q, q < horizon → l < q → isActual obs q = false := by
    intro q hq hlq
    cases hb : isActual obs q with
    | false => rfl
    | true =>
      exfalso
      have hla' := hla
      unfold laFinal at hla'
      cases hscan : lastActualAux obs horizon with
      | some l' =>
        rw [hscan] at hla'
        have hll : l' = l := by injection hla'
        obtain ⟨_, _, hmax⟩ := lastActualAux_some obs horizon l' hscan
        have := hmax q hq hb
        omega
      | none =>
        rw [hscan] at hla'
        have := lastActualAux_none obs horizon hscan q hq
        rw [hb] at this
        exact absurd this (by simp)
  simp only [predRow, if_pos hp, if_pos (show p - 1 < horizon by omega), hla,
    if_neg (show ¬ p ≤ l by omega), hact, Bool.false_eq_true, if_false]
  rcases Nat.lt_or_ge (p - 1) (l + 1) with hk | hk
  · -- p = l + 1 : the predecessor is the last actual period itself
    obtain rfl : p = l + 1 := by omega
    simp only [if_pos (show l + 1 - 1 ≤ l by omega)]
    have h1 : l + 1 - l - 1 = 0 := by omega
    have h2 : l + 1 - l = 1 := by omega
    rw [h1, h2, refAux, pow_one, Option.getD_some]
    norm_num
  · -- p ≥ l + 2 : the predecessor was itself synthesized
    have hactp1 : isActual obs (p - 1) = false :=
      hnoact (p - 1) (by omega) (by omega)
    have hk1 : p - l - 1 = (p - 1 - l - 1) + 1 := by omega
    have hstep : refAux obs l (row1 obs m0 spend l) (p - l - 1) =
        refAux obs l (row1 obs m0 spend l) (p - 1 - l - 1) := by
      rw [hk1, refAux, show l + 1 + (p - 1 - l - 1) = p - 1 by omega, hactp1]
      simp
    simp only [if_neg (show ¬ p - 1 ≤ l by omega), hactp1, Bool.false_eq_true,
      if_false, Option.getD_some, hstep]
    have hp1 : p - l = (p - 1 - l) + 1 := by omega
    rw [hp1, pow_succ]
    ring_nf

/-- Witness for C4: a single actual payment of 100 at period 0, churn 1/10,
horizon 3 — period 2's synthesized value is (1 - 1/10) times period 1's. -/
theorem C4_geometric_decay_witness :
    predRow obsSingle 3 0 (1/10) 0 2 =
      some ((predRow obsSingle 3 0 (1/10) 0 1).getD 0 * (1 - 1/10)) :=
  C4_geometric_decay obsSingle 3 0 (1/10) 0 0 2 rfl (by norm_num) (by norm_num)
    (by rfl)

theorem obsSingle_isActual_succ (n : ℕ) : isActual obsSingle (n + 1) = false := by
  simp [isActual, obsSingle]

theorem lastActualAux_obsSingle : ∀ n : ℕ, lastActualAux obsSingle (n + 1) = some 0 := by
  intro n
  induction n with
  | zero => rfl
  | succ n ih =>
    show lastActualAux obsSingle (n + 1 + 1) = some 0
    unfold lastActualAux
    rw [obsSingle_isActual_succ n]
    simpa using ih

theorem refAux_obsSingle (init : ℚ) : ∀ k : ℕ, refAux obsSingle 0 init k = init := by
  intro k
  induction k with
  | zero => rfl
  | succ k ih =>
    unfold refAux
    rw [show 0 + 1 + k = k + 1 by omega, obsSingle_isActual_succ k]
    simpa using ih

/-- **C6 counterexample** — projection termination as claimed fails on the
code: the default horizon is 24 periods, not 36 (calc.py line 63), and the
projection loop (calc.py lines 131-147) knows nothing of trades or caps — a
cohort whose trade (cash cap 10, base share 1/2) is capped already at period
0 (collections [10, 0]) still gets a synthesized payment of 100 at period 23,
long after the cap was reached. -/
theorem C6_projection_termination_counterexample :
    horizonDefault = 24 ∧ horizonDefault ≠ 36 ∧
    collections 10 (1/2) [(100, false), (90, false)] = [10, 0] ∧
    isActual obsSingle 23 = false ∧
    predRow obsSingle horizonDefault 0 0 0 23 = some 100 := by
  refine ⟨rfl, by norm_num [horizonDefault], ?_, by simpa using obsSingle_isActual_succ 22, ?_⟩
  · norm_num [collections, collectionsAux, shareRate]
  · have h24 : lastActualAux obsSingle 24 = some 0 := lastActualAux_obsSingle 23
    simp only [predRow, horizonDefault, laFinal, h24]
    norm_num [refAux_obsSingle, row1, m0Cond, row0, obsSingle, isActual]

/-- **C6 amended** — Projection extent (calc.py lines 87-95, 131-147): the
returned row is populated exactly at the periods below the caller-supplied
horizon (whose default is 24, not 36) and holds nothing at or beyond it; the
projection never stops early on capping — cap enforcement happens only
downstream in the collections loop. -/
theorem C6_projection_extent (obs : ℕ → Option ℚ) (horizon : ℕ)
    (m0 churn spend : ℚ) :
    horizonDefault = 24 ∧
    (∀ p : ℕ, horizon ≤ p → predRow obs horizon m0 churn spend p = none) ∧
    (∀ p : ℕ, p < horizon → (predRow obs horizon m0 churn spend p).isSome = true) := by
  refine ⟨rfl, fun p hp => ?_, fun p hp => ?_⟩
  · unfold predRow
    rw [if_neg (by omega)]
  · unfold predRow
    rw [if_pos hp]
    rfl

/-- Witness for C6 amended at horizon 4: period 7 is absent, period 2 is
populated. -/
theorem C6_projection_extent_witness :
    predRow obsSingle 4 0 0 0 7 = none ∧
    (predRow obsSingle 4 0 0 0 2).isSome = true :=
  ⟨(C6_projection_extent obsSingle 4 0 0 0).2.1 7 (by norm_num),
   (C6_projection_extent obsSingle 4 0 0 0).2.2 2 (by norm_num)⟩

/-- **C10 counterexample** — an observed non-zero cell at period 30 (beyond
the default 24-period horizon) is dropped from the returned matrix
(calc.py line 95, `result = result[pred_cols]`): the returned row holds no
value at all at period 30, not the observed 5. -/
theorem C10_preserve_observed_counterexample :
    obsBeyond 30 = some 5 ∧ (5 : ℚ) ≠ 0 ∧
    predRow obsBeyond horizonDefault 0 (1/10) 0 30 = none := by
  refine ⟨rfl, by norm_num, ?_⟩
  unfold predRow horizonDefault
  rw [if_neg (by norm_num)]

/-- **C10 amended** — Predictions never overwrite observed data within the
horizon (calc.py lines 126, 137-143): every period below the horizon whose
observed cell holds a non-zero value keeps exactly that value in the
returned row; synthesized values land only on zero or absent cells
(cells at or beyond the horizon are dropped wholesale). -/
theorem C10_predictions_preserve_observed (obs : ℕ → Option ℚ) (horizon : ℕ)
    (m0 churn spend : ℚ) (p : ℕ) (v : ℚ) (hp : p < horizon)
    (hv : obs p = some v) (hnz : v ≠ 0) :
    predRow obs horizon m0 churn spend p = some v := by
  have hact : isActual obs p = true := by simp [isActual, hv, hnz]
  have hrow0 : row0 obs p = v := by simp [row0, hv]
  cases hscan : lastActualAux obs horizon with
  | none =>
    have := lastActualAux_none obs horizon hscan p hp
    rw [hact] at this
    exact absurd this (by simp)
  | some l =>
    have hpl : p ≤ l := (lastActualAux_some obs horizon l hscan).2.2 p hp hact
    have hlf : laFinal obs horizon spend = some l := by
      unfold laFinal
      rw [hscan]
    simp only [predRow, if_pos hp, hlf, if_pos hpl]
    unfold row1
    rcases Nat.eq_zero_or_pos p with rfl | hppos
    · have hm0 : m0Cond obs spend = false := by
        simp [m0Cond, row0, hv, hnz]
      simp [hm0, hrow0]
    · rw [if_neg (fun h => absurd h.1 (by omega))]
      rw [hrow0]

/-- Witness for C10 amended: the observed 100 at period 0 survives a
projection with churn 1/10, m0 = 1 and spend 5. -/
theorem C10_predictions_preserve_observed_witness :
    predRow obsSingle 3 1 (1/10) 5 0 = some 100 :=
  C10_predictions_preserve_observed obsSingle 3 1 (1/10) 5 0 100 (by norm_num)
    rfl (by norm_num)

/-- **C8** — Yield Calculator contract, modelled from the spec (§4.5; the
implementation is absent from the source tree): under the contract, an
all-positive cash-flow series (negated spend outflow and every period
payment strictly positive) admits no monthly rate making the NPV zero, so
the result is absent (None) — not an error and not zero — and any present
result annualizes an actual root via (1+r)^12 - 1. -/
theorem C8_yield_no_real_root (spend : ℚ) (ps : List ℚ) (result : Option ℝ)
    (hspec : yieldSpec spend ps result) :
    ((∀ c ∈ cashSeries spend ps, 0 < c) → result = none) ∧
    (∀ y : ℝ, result = some y →
      ∃ r : ℝ, -1 < r ∧ npvZeroAt spend ps r ∧ y = (1 + r) ^ (12 : ℕ) - 1) := by
  refine ⟨fun hpos => ?_, hspec.2⟩
  apply hspec.1.mpr
  rintro ⟨r, hr, hnpv⟩
  unfold npvZeroAt at hnpv
  have hd : (0 : ℝ) < (1 + r)⁻¹ := inv_pos.mpr (by linarith)
  have hspendpos : (0 : ℝ) < -(spend : ℝ) := by
    have h := hpos (-spend) (List.mem_cons_self _ _)
    have : (0 : ℚ) < -spend := h
    exact_mod_cast this
  have hsum : 0 ≤ ∑ i ∈ Finset.range ps.length,
      (ps.getD i 0 : ℝ) * ((1 + r)⁻¹) ^ (i + 1) := by
    apply Finset.sum_nonneg
    intro i hi
    have hiL : i < ps.length := Finset.mem_range.mp hi
    have hmem : ps.getD i 0 ∈ ps := by
      rw [List.getD_eq_getElem _ _ hiL]
      exact List.getElem_mem hiL
    have hppos : (0 : ℚ) < ps.getD i 0 :=
      hpos _ (List.mem_cons_of_mem _ hmem)
    have hppos' : (0 : ℝ) < (ps.getD i 0 : ℝ) := by exact_mod_cast hppos
    positivity
  linarith

theorem yieldSpec_unit_example : yieldSpec (-1) [1] (none : Option ℝ) := by
  constructor
  · constructor
    · intro _
      rintro ⟨r, hr, hnpv⟩
      unfold npvZeroAt at hnpv
      simp [Finset.sum_range_one] at hnpv
      have hd : (0 : ℝ) < (1 + r)⁻¹ := inv_pos.mpr (by linarith)
      nlinarith [hd, hnpv]
    · intro _
      rfl
  · intro y hy
    simp at hy

/-- Witness for C8: the spec instance with spend -1 (an all-positive series
[1, 1]) and the absent result satisfies the contract, and the theorem forces
the absent result. -/
theorem C8_yield_no_real_root_witness :
    yieldSpec (-1) [1] (none : Option ℝ) ∧ (none : Option ℝ) = none :=
  ⟨yieldSpec_unit_example,
   (C8_yield_no_real_root (-1) [1] none yieldSpec_unit_example).1 (by
      intro c hc
      simp [cashSeries] at hc
      rw [hc]
      norm_num)⟩
